import Mathlib

/-!
Verification of the passguard password-security core (`passguard/__init__.py`).

Strings from the Python source are modelled as `List Char`; the regular
expression character classes `[a-z]`, `[A-Z]`, `\d`, `[^a-zA-Z\d]` are modelled
on their ASCII ranges (Python's `re` additionally matches non-ASCII letters or
digits for `\d` only; `[a-z]`/`[A-Z]` are literal ranges, and the `symbols`
class is the complement of the other three, exactly as in the source).

Python's float arithmetic on `len(password) * math.log2(pool)` is modelled by
exact real arithmetic (`Real.logb 2`), the standard shallow embedding of the
intended semantics.  All threshold comparisons `entropy < t` for the integer
thresholds 28/36/50/65/90 are embedded in the exact integer form
`pool ^ length < 2 ^ t`, and `entropy_lt_iff` proves that this is equivalent to
the real-number comparison, so the embedded scorer is executable.
-/

namespace Passguard

/-- Python `str.lower()` restricted to the characters we model. -/
def lowerS (s : List Char) : List Char := s.map Char.toLower

/-- Membership test for the regex class `[a-z]` (source line 151). -/
def isLowerClass (c : Char) : Bool := 'a' ≤ c && c ≤ 'z'

/-- Membership test for the regex class `[A-Z]` (source line 152). -/
def isUpperClass (c : Char) : Bool := 'A' ≤ c && c ≤ 'Z'

/-- Membership test for the regex class `\d` (source line 153, ASCII range). -/
def isDigitClass (c : Char) : Bool := '0' ≤ c && c ≤ '9'

/-- Membership test for the regex class `[^a-zA-Z\d]` (source line 154):
anything that is not a letter and not a digit. -/
def isSymbolClass (c : Char) : Bool := !(isLowerClass c || isUpperClass c || isDigitClass c)

/-- The `classes` dict of `score_strength` (source lines 150-155): which of the
four character classes occur in the password. -/
structure Classes where
  lowercase : Bool
  uppercase : Bool
  digits : Bool
  symbols : Bool
deriving DecidableEq

/-- Character-class analysis of a password: `re.search` over the whole string
is existence of a matching character. -/
def classes (pw : List Char) : Classes :=
  ⟨pw.any isLowerClass, pw.any isUpperClass, pw.any isDigitClass, pw.any isSymbolClass⟩

/-- Alphabet pool size from a class analysis (source lines 157-162):
`sum([26, 26, 10, 32] for present classes) or 1`; the Python `or 1` turns the
falsy sum `0` into `1`. -/
def poolC (c : Classes) : Nat :=
  let s := (if c.lowercase then 26 else 0) + (if c.uppercase then 26 else 0) +
    (if c.digits then 10 else 0) + (if c.symbols then 32 else 0)
  if s = 0 then 1 else s

/-- Pool size of a password. -/
def poolOf (pw : List Char) : Nat := poolC (classes pw)

/-- Number of distinct character classes present, `sum(classes.values())`
(source line 189). -/
def countC (c : Classes) : Nat :=
  (if c.lowercase then 1 else 0) + (if c.uppercase then 1 else 0) +
    (if c.digits then 1 else 0) + (if c.symbols then 1 else 0)

/-- Distinct-class count of a password. -/
def class_count (pw : List Char) : Nat := countC (classes pw)

/-- Entropy in bits (source line 164):
`entropy = len(password) * math.log2(pool) if password else 0.0`. -/
noncomputable def entropy (pw : List Char) : ℝ :=
  if pw = [] then 0 else (pw.length : ℝ) * Real.logb 2 (poolOf pw)

/-- Exact integer form of the source comparison `entropy < t` for an integer
threshold `t`; `entropy_lt_iff` shows it agrees with the real comparison. -/
def entropyLt (pw : List Char) (t : Nat) : Prop := poolOf pw ^ pw.length < 2 ^ t

instance (pw : List Char) (t : Nat) : Decidable (entropyLt pw t) :=
  inferInstanceAs (Decidable (_ < _))

/-- The static sequence table `_SEQUENCES` (source lines 127-133). -/
def _SEQUENCES : List (List Char) :=
  [("abcdefghijklmnopqrstuvwxyz").data,
   ("0123456789").data,
   ("qwertyuiop").data,
   ("asdfghjkl").data,
   ("zxcvbnm").data]

/-- Checks whether `nd` is an initial segment of `hay`. -/
def leads : List Char → List Char → Bool
  | [], _ => true
  | _ :: _, [] => false
  | a :: nd, b :: hay => a == b && leads nd hay

/-- Python's substring test `nd in hay` on strings: `nd` occurs contiguously
inside `hay`. -/
def within (nd hay : List Char) : Bool :=
  match hay with
  | [] => nd.isEmpty
  | _ :: t => leads nd hay || within nd t

/-- The sliding windows `seq[i:i+3]` for `i in range(len(seq) - 2)`
(source lines 171-172). -/
def windows3 (seq : List Char) : List (List Char) :=
  (List.range (seq.length - 2)).map (fun i => (seq.drop i).take 3)

/-- The match test of source line 173: `chunk in lower or chunk[::-1] in lower`. -/
def seqMatch (lower chunk : List Char) : Bool :=
  within chunk lower || within chunk.reverse lower

/-- The warning text `f"Sequential pattern detected ('{chunk}')"`
(source line 174). -/
def fmtSeq (chunk : List Char) : List Char :=
  ("Sequential pattern detected (").data ++ ['\''] ++ chunk ++ ['\''] ++ (")").data

/-- The sequential-pattern pass (source lines 170-175): for each table entry,
the inner `for`/`break` loop appends one warning for the first matching
3-character window, which is exactly `find?` over the windows. -/
def seqWarnings (lower : List Char) : List (List Char) :=
  _SEQUENCES.filterMap (fun seq => ((windows3 seq).find? (seqMatch lower)).map fmtSeq)

/-- The repeated-character test, regex `(.)\1{2,}` (source line 177): some
character occurs at least three times consecutively. -/
def hasRepeat : List Char → Bool
  | a :: b :: c :: rest => (a == b && b == c) || hasRepeat (b :: c :: rest)
  | _ => false

/-- Warning text of source line 178. -/
def repeatedWarning : List Char :=
  ("Repeated characters detected (e.g. ").data ++ ['\'', 'a', 'a', 'a', '\''] ++ (")").data

/-- Warning text of source line 181. -/
def shortWarning : List Char := ("Too short -- use at least 8 characters").data

/-- Warning text of source line 183. -/
def considerWarning : List Char := ("Consider using 12+ characters").data

/-- Order-preserving deduplication, `list(dict.fromkeys(warnings))`
(source line 186): keep the first occurrence of each string. -/
def pyDedup (l : List (List Char)) : List (List Char) :=
  l.foldl (fun acc s => if s ∈ acc then acc else acc ++ [s]) []

/-- The full warnings computation of `score_strength` (source lines 147-186):
sequential patterns (only when `entropy < 90`), repeats, length advice, then
order-preserving deduplication.  The entropy gate is the exact integer form of
the source's `entropy < 90` (see `entropy_lt_iff`). -/
def warningsOf (pw : List Char) : List (List Char) :=
  pyDedup
    ((if entropyLt pw 90 then seqWarnings (lowerS pw) else []) ++
     (if hasRepeat pw then [repeatedWarning] else []) ++
     (if pw.length < 8 then [shortWarning]
      else if pw.length < 12 then [considerWarning] else []))

/-- The high-entropy override `entropy >= 90` (source line 190), in exact
integer form. -/
def high_entropy (pw : List Char) : Prop := 2 ^ 90 ≤ poolOf pw ^ pw.length

instance (pw : List Char) : Decidable (high_entropy pw) :=
  inferInstanceAs (Decidable (_ ≤ _))

/-- The composite score cascade (source lines 191-200), with every comparison
`entropy < t` in its exact integer form `pool ^ length < 2 ^ t`. -/
def score (pw : List Char) : Nat :=
  if entropyLt pw 28 ∨ pw.length < 8 then 0
  else if entropyLt pw 36 ∨ (¬high_entropy pw ∧ class_count pw < 2) then 1
  else if entropyLt pw 50 ∨ (¬high_entropy pw ∧ class_count pw < 3) then 2
  else if entropyLt pw 65 ∧ ¬high_entropy pw then 3
  else 4

/-- The label table (source line 202). -/
def labels : List (List Char) :=
  [("Very Weak").data, ("Weak").data, ("Fair").data, ("Strong").data, ("Very Strong").data]

/-- Label lookup `labels[score]` (source line 209). -/
def label (pw : List Char) : List Char := labels.getD (score pw) []

/-- The report returned by `score_strength` (source lines 204-211).  The
source rounds the entropy to one decimal for display; we keep the exact value,
which is the one used in every internal comparison. -/
structure StrengthReport where
  length : Nat
  entropy : ℝ
  char_classes : Classes
  score : Nat
  label : List Char
  warnings : List (List Char)

/-- The strength scorer `score_strength` (source lines 136-211). -/
noncomputable def score_strength (pw : List Char) : StrengthReport :=
  ⟨pw.length, entropy pw, classes pw, score pw, label pw, warningsOf pw⟩

open Classical in
/-- Spec-side definition, following the words of the spec's composite-score
cascade (spec section 4.1 step 8): gates expressed directly on the real-valued
entropy, the length, and the distinct-class count, with the high-entropy
override at 90 bits. -/
noncomputable def scoreSpec (e : ℝ) (len cc : Nat) : Nat :=
  if e < 28 ∨ len < 8 then 0
  else if e < 36 ∨ (¬(90 ≤ e) ∧ cc < 2) then 1
  else if e < 50 ∨ (¬(90 ≤ e) ∧ cc < 3) then 2
  else if e < 65 ∧ ¬(90 ≤ e) then 3
  else 4

/-! ## Password generation (`generate_password`, source lines 217-253)

`secrets.choice` and `secrets.randbelow` are modelled by an injected stream
`g : Nat -> Nat` of raw random values, consumed at fixed call slots; a call
`secrets.choice(l)` becomes the element at index `g k % l.length` and
`secrets.randbelow(n)` becomes `g k % n`.  Every theorem quantifies over all
streams `g`, so the claims hold for every behaviour of the random source. -/

/-- Python's `string.ascii_lowercase`. -/
def ascii_lowercase : List Char := ("abcdefghijklmnopqrstuvwxyz").data

/-- Python's `string.ascii_uppercase`. -/
def ascii_uppercase : List Char := ("ABCDEFGHIJKLMNOPQRSTUVWXYZ").data

/-- Python's `string.digits`. -/
def digitsChars : List Char := ("0123456789").data

/-- Python's `string.punctuation` (32 characters); the backtick and the two
braces are written via their code points. -/
def punctuationChars : List Char :=
  ['!', '"', '#', '$', '%', '&', '\'', '(', ')', '*', '+', ',', '-', '.', '/',
   ':', ';', '<', '=', '>', '?', '@', '[', '\\', ']', '^', '_', Char.ofNat 96,
   '\x7b', '|', '\x7d', '~']

/-- Model of `secrets.choice(l)` fed by stream value `g k`. -/
def choiceAt (g : Nat → Nat) (k : Nat) (l : List Char) : Char :=
  l.getD (g k % l.length) ' '

/-- The combined alphabet built incrementally from the enabled classes
(source lines 232-242). -/
def genAlphabet (uppercase digits symbols : Bool) : List Char :=
  ascii_lowercase ++ (if uppercase then ascii_uppercase else []) ++
    (if digits then digitsChars else []) ++ (if symbols then punctuationChars else [])

/-- The forced required characters: one lowercase always, plus one from each
enabled optional class (source lines 233-243).  Slots 0-3 of the stream feed
the four possible `secrets.choice` calls. -/
def requiredChars (g : Nat → Nat) (uppercase digits symbols : Bool) : List Char :=
  [choiceAt g 0 ascii_lowercase] ++
    (if uppercase then [choiceAt g 1 ascii_uppercase] else []) ++
    (if digits then [choiceAt g 2 digitsChars] else []) ++
    (if symbols then [choiceAt g 3 punctuationChars] else [])

/-- One Fisher-Yates swap `chars[i], chars[j] = chars[j], chars[i]`
(source line 251). -/
def swapL (l : List Char) (i j : Nat) : List Char :=
  (l.set i (l.getD j ' ')).set j (l.getD i ' ')

/-- The Fisher-Yates loop `for i in range(len(chars) - 1, 0, -1)` (source
lines 249-251), recursing on the descending index `i`; at index `i` the swap
partner is `randbelow(i + 1)`, here `g k % (i + 1)`. -/
def fisherYates (g : Nat → Nat) (k : Nat) (l : List Char) : Nat → List Char
  | 0 => l
  | i + 1 => fisherYates g (k + 1) (swapL l (i + 1) (g k % (i + 2))) i

/-- The generator `generate_password` (source lines 217-253).  Python's
`raise ValueError(...)` is modelled by the `Except.error` branch. -/
def generate_password (g : Nat → Nat) (length : Nat)
    (uppercase digits symbols : Bool) : Except (List Char) (List Char) :=
  if length < 4 then Except.error (("Password length must be at least 4").data)
  else
    let alphabet := genAlphabet uppercase digits symbols
    let required := requiredChars g uppercase digits symbols
    let remaining := length - required.length
    let chars := required ++ (List.range remaining).map (fun i => choiceAt g (4 + i) alphabet)
    Except.ok (fisherYates g (4 + remaining) chars (chars.length - 1))

/-! ## Password breach check (`check_breach`, source lines 19-38)

SHA-1 (`hashlib.sha1(...).hexdigest()`) is an external library primitive, so
it is injected as a parameter `sha1hex` producing the lowercase hex digest of
the UTF-8 encoded password; the range lookup (the HTTP call of source lines
28-32, abstracted per the spec's injected-lookup contract of section 4.3) is
injected as a function from the transmitted prefix to the parsed
`(suffix, count)` pairs of the response body. -/

/-- The only data `check_breach` passes to the range lookup: the first five
characters of the uppercased hex digest (source lines 25-29). -/
def sentData (sha1hex : List Char → List Char) (pw : List Char) : List Char :=
  ((sha1hex pw).map Char.toUpper).take 5

/-- The retained 35-character suffix of the uppercased hex digest
(source line 26). -/
def hashTail (sha1hex : List Char → List Char) (pw : List Char) : List Char :=
  ((sha1hex pw).map Char.toUpper).drop 5

/-- The response scan of source lines 34-38: the count of the first pair whose
suffix equals the retained suffix, else 0. -/
def scanPairs (pairs : List (List Char × Nat)) (sfx : List Char) : Nat :=
  match pairs.find? (fun p => p.1 == sfx) with
  | some p => p.2
  | none => 0

/-- The breach counter `check_breach` (source lines 19-38): uppercase the hex
digest, split 5/35, transmit only the prefix, scan the response pairs. -/
def check_breach (sha1hex : List Char → List Char)
    (lookup : List Char → List (List Char × Nat)) (pw : List Char) : Nat :=
  scanPairs (lookup (sentData sha1hex pw)) (hashTail sha1hex pw)

/-! ## Email breach aggregation (`check_email_breach`, source lines 44-122)

The two HTTP sources are injected as explicit outcome values, per the spec's
design note: XposedOrNot (source A) either raises, reports 404/not-found, or
returns the raw `breaches` payload (a list whose items are either nested name
lists or plain names, source lines 76-82); LeakCheck (source B) either raises
or returns `success`, `found` and the `sources` records. -/

/-- A merged breach record (the dict values of source lines 86-90/108-112). -/
structure Breach where
  name : List Char
  date : Option (List Char)
  source : List Char
deriving DecidableEq

/-- A LeakCheck `sources` record: `{name, date}` (source lines 104-110). -/
structure BRecord where
  name : List Char
  date : Option (List Char)
deriving DecidableEq

/-- Outcome of the XposedOrNot call (source lines 63-93). -/
inductive ASourceResult where
  | err (msg : List Char)
  | notFound
  | ok (raw : List (List (List Char) ⊕ List Char))
deriving DecidableEq

/-- Outcome of the LeakCheck call (source lines 96-115). -/
inductive BSourceResult where
  | err (msg : List Char)
  | ok (success : Bool) (found : Nat) (sources : List BRecord)
deriving DecidableEq

/-- Whether the A call raised. -/
def ASourceResult.isErr : ASourceResult → Bool
  | .err _ => true
  | _ => false

/-- Whether the B call raised. -/
def BSourceResult.isErr : BSourceResult → Bool
  | .err _ => true
  | _ => false

/-- The flattening loop of source lines 77-82: nested lists are spliced,
plain items are appended. -/
def flattenNames (raw : List (List (List Char) ⊕ List Char)) : List (List Char) :=
  raw.foldl (fun acc item =>
    match item with
    | Sum.inl l => acc ++ l
    | Sum.inr s => acc ++ [s]) []

/-- The breaches mapping is a Python dict keyed by lowercased name, modelled
as an insertion-ordered association list. -/
abbrev BreachMap : Type := List (List Char × Breach)

/-- Python `key not in breaches` guarded insert (source lines 84-90): first
writer wins, new keys are appended at the end. -/
def addIfAbsent (m : BreachMap) (k : List Char) (v : Breach) : BreachMap :=
  if m.any (fun p => p.1 == k) then m else m ++ [(k, v)]

/-- Python dict assignment `breaches[key] = v` (source lines 106-112): an
existing key keeps its position but gets the new value, a new key is appended
at the end. -/
def putKey (m : BreachMap) (k : List Char) (v : Breach) : BreachMap :=
  if m.any (fun p => p.1 == k) then
    m.map (fun p => if p.1 == k then (k, v) else p)
  else m ++ [(k, v)]

/-- Lookup in the association-list model of the dict. -/
def mapFind (m : BreachMap) (k : List Char) : Option Breach :=
  (m.find? (fun p => p.1 == k)).map (fun p => p.2)

/-- The record inserted for an XposedOrNot name (source lines 86-90):
original name, no date, source tag. -/
def mkA (name : List Char) : Breach := ⟨name, none, ("XposedOrNot").data⟩

/-- The record inserted for a LeakCheck `sources` entry (source lines
108-112): name, its date, source tag. -/
def mkB (r : BRecord) : Breach := ⟨r.name, r.date, ("LeakCheck").data⟩

/-- The XposedOrNot insertion loop (source lines 83-90). -/
def applyA (m : BreachMap) (names : List (List Char)) : BreachMap :=
  names.foldl (fun m name => addIfAbsent m (lowerS name) (mkA name)) m

/-- The LeakCheck upsert loop (source lines 104-112). -/
def applyB (m : BreachMap) (srcs : List BRecord) : BreachMap :=
  srcs.foldl (fun m r => putKey m (lowerS r.name) (mkB r)) m

/-- Outcome of the XposedOrNot block (source lines 62-93): the map after the
insertions, the `sources_checked` contribution, and the `errors` contribution. -/
def stepA (ra : ASourceResult) : BreachMap × List (List Char) × List (List Char) :=
  match ra with
  | .err msg => ([], [], [("XposedOrNot: ").data ++ msg])
  | .notFound => ([], [("XposedOrNot").data], [])
  | .ok raw => (applyA [] (flattenNames raw), [("XposedOrNot").data], [])

/-- Outcome of the LeakCheck block (source lines 95-115), applied to the map
produced by the XposedOrNot block; records are merged only when
`data.get("success") and data.get("found", 0) > 0`. -/
def stepB (m1 : BreachMap) (rb : BSourceResult) :
    BreachMap × List (List Char) × List (List Char) :=
  match rb with
  | .err msg => (m1, [], [("LeakCheck: ").data ++ msg])
  | .ok success found srcs =>
      (if success = true ∧ 0 < found then applyB m1 srcs else m1,
       [("LeakCheck").data], [])

/-- Python `\s` whitespace on the characters we model (ASCII subset; the
unicode whitespace code points play no role in the claims). -/
def isSpaceChar (c : Char) : Bool :=
  c == ' ' || c == '\t' || c == '\n' || c == '\r' || c == '\x0b' || c == '\x0c'

/-- Boolean matcher equivalent to `re.match(r"^[^@\s]+@[^@\s]+\.[^@\s]+$", email)`
(source line 50): no whitespace anywhere, exactly one `@` (both character
classes exclude it), a non-empty local part, and a domain of length at least 3
with a dot at an interior position. -/
def emailValid (email : List Char) : Bool :=
  email.count '@' == 1 &&
  email.all (fun c => !isSpaceChar c) &&
  (let l := email.takeWhile (fun c => c != '@')
   let d := (email.dropWhile (fun c => c != '@')).drop 1
   decide (1 ≤ l.length) && decide (3 ≤ d.length) && ((d.drop 1).dropLast.contains '.'))

/-- The report returned by `check_email_breach` (source lines 117-122). -/
structure EmailBreachReport where
  exposed : Bool
  breaches : List Breach
  sources_checked : List (List Char)
  errors : List (List Char)
deriving DecidableEq

/-- The aggregator `check_email_breach` (source lines 44-122): validate the
email, run the XposedOrNot block, run the LeakCheck block on the shared map,
then assemble the report. -/
def check_email_breach (email : List Char) (ra : ASourceResult) (rb : BSourceResult) :
    EmailBreachReport :=
  if emailValid email = false then
    ⟨false, [], [], [("Invalid email address: ").data ++ email]⟩
  else
    let a := stepA ra
    let b := stepB a.1 rb
    ⟨decide (0 < b.1.length), b.1.map (fun p => p.2), a.2.1 ++ b.2.1, a.2.2 ++ b.2.2⟩

/-- Whether the XposedOrNot outcome contributed at least one breach name. -/
def aContrib : ASourceResult → Bool
  | .err _ => false
  | .notFound => false
  | .ok raw => !(flattenNames raw).isEmpty

/-- Whether the LeakCheck outcome contributed at least one record. -/
def bContrib : BSourceResult → Bool
  | .err _ => false
  | .ok success found srcs => success && decide (0 < found) && !srcs.isEmpty

/-- A fixed 40-character hex digest value, used by the closed witness
theorems to instantiate the injected hash function. -/
def digestW : List Char := ("0123456789abcdef0123456789abcdef01234567").data

/-! ## Lemmas about the strength scorer -/

/-- The pool is always positive (the `or 1` guard). -/
theorem poolC_pos (c : Classes) : 0 < poolC c := by
  rcases c with ⟨l, u, d, s⟩
  revert l u d s
  decide

/-- In a non-empty password, the first character already witnesses one of the
four classes (the `symbols` class is the complement of the other three). -/
theorem classes_ne_none (pw : List Char) (h : pw ≠ []) :
    (classes pw).lowercase || (classes pw).uppercase ||
      (classes pw).digits || (classes pw).symbols = true := by
  rcases pw with _ | ⟨c, rest⟩
  · exact absurd rfl h
  · simp only [classes, List.any_cons, Bool.or_assoc]
    rcases hl : isLowerClass c with _ | _ <;>
      rcases hu : isUpperClass c with _ | _ <;>
        rcases hd : isDigitClass c with _ | _ <;>
          simp [isSymbolClass, hl, hu, hd]

/-- When some class is present the pool is at least 10. -/
theorem poolC_ge_ten (c : Classes)
    (h : c.lowercase || c.uppercase || c.digits || c.symbols = true) :
    10 ≤ poolC c := by
  rcases c with ⟨l, u, d, s⟩
  revert l u d s
  decide

/-- Pool of a non-empty password exceeds 1. -/
theorem poolOf_gt_one (pw : List Char) (h : pw ≠ []) : 1 < poolOf pw :=
  lt_of_lt_of_le (by norm_num) (poolC_ge_ten _ (classes_ne_none pw h))

/-- Bridge between the exact integer comparison and the real-entropy
comparison of the source: `entropy < t` iff `pool ^ length < 2 ^ t`. -/
theorem entropy_lt_iff (pw : List Char) (t : Nat) :
    entropy pw < (t : ℝ) ↔ entropyLt pw t := by
  unfold entropy entropyLt
  by_cases hpw : pw = []
  · subst hpw
    rw [if_pos rfl]
    simp only [List.length_nil, pow_zero, Nat.one_lt_two_pow_iff]
    constructor
    · intro h ht
      rw [ht] at h
      simp at h
    · intro h
      exact_mod_cast Nat.pos_of_ne_zero h
  · rw [if_neg hpw]
    have hpool : (0 : ℝ) < (poolOf pw : ℝ) := by
      exact_mod_cast poolC_pos (classes pw)
    have hppos : (0 : ℝ) < ((poolOf pw : ℝ)) ^ pw.length := pow_pos hpool _
    rw [← Real.logb_pow 2 ((poolOf pw : ℝ)) pw.length,
      Real.logb_lt_iff_lt_rpow (by norm_num) hppos,
      Real.rpow_natCast]
    constructor
    · intro h
      exact_mod_cast h
    · intro h
      exact_mod_cast h

/-- Companion bridge for the high-entropy test `entropy >= 90`
(source line 190). -/
theorem le_entropy_iff (pw : List Char) (t : Nat) :
    (t : ℝ) ≤ entropy pw ↔ 2 ^ t ≤ poolOf pw ^ pw.length := by
  rw [← not_lt, entropy_lt_iff, entropyLt, not_lt]

/-- A strictly larger class count forces a strictly larger pool: the 26/26/10/32
contributions make every k-class pool exceed every (k-1)-class pool. -/
theorem poolC_strict_mono (c1 c2 : Classes) (h : countC c1 < countC c2) :
    poolC c1 < poolC c2 := by
  rcases c1 with ⟨a1, b1, d1, s1⟩
  rcases c2 with ⟨a2, b2, d2, s2⟩
  revert h
  revert a1 b1 d1 s1 a2 b2 d2 s2
  decide

/-- C1: `score_strength` assigns the composite score exactly by the spec's
cascade over the real-valued entropy, the length, and the distinct-class
count, with the 90-bit high-entropy override; the score stays in 0..4 and the
label is the five-entry table lookup indexed by the score. -/
theorem score_strength_cascade (pw : List Char) :
    (score_strength pw).score =
      scoreSpec (score_strength pw).entropy (score_strength pw).length (class_count pw) ∧
    (score_strength pw).score ≤ 4 ∧
    (score_strength pw).label = labels.getD ((score_strength pw).score) [] := by
  have h28 : entropy pw < (28 : ℝ) ↔ entropyLt pw 28 := by
    exact_mod_cast entropy_lt_iff pw 28
  have h36 : entropy pw < (36 : ℝ) ↔ entropyLt pw 36 := by
    exact_mod_cast entropy_lt_iff pw 36
  have h50 : entropy pw < (50 : ℝ) ↔ entropyLt pw 50 := by
    exact_mod_cast entropy_lt_iff pw 50
  have h65 : entropy pw < (65 : ℝ) ↔ entropyLt pw 65 := by
    exact_mod_cast entropy_lt_iff pw 65
  have h90 : (90 : ℝ) ≤ entropy pw ↔ high_entropy pw := by
    exact_mod_cast le_entropy_iff pw 90
  refine ⟨?_, ?_, rfl⟩
  · show score pw = scoreSpec (entropy pw) pw.length (class_count pw)
    unfold score scoreSpec
    exact (if_congr (or_congr h28 Iff.rfl) rfl
      (if_congr (or_congr h36 (and_congr (not_congr h90) Iff.rfl)) rfl
        (if_congr (or_congr h50 (and_congr (not_congr h90) Iff.rfl)) rfl
          (if_congr (and_congr h65 (not_congr h90)) rfl rfl)))).symm
  · show score pw ≤ 4
    unfold score
    split_ifs <;> omega

/-- C9: the entropy reported by `score_strength` is strictly monotone, first
in the password length with the character-class composition held fixed, and
second in the distinct-class count (hence the pool size) with the non-zero
length held fixed. -/
theorem entropy_strict_mono :
    (∀ p1 p2 : List Char, classes p1 = classes p2 → p1.length < p2.length →
        (score_strength p1).entropy < (score_strength p2).entropy) ∧
    (∀ p1 p2 : List Char, p1.length = p2.length → p1 ≠ [] →
        class_count p1 < class_count p2 →
        (score_strength p1).entropy < (score_strength p2).entropy) := by
  constructor
  · intro p1 p2 hc hlen
    show entropy p1 < entropy p2
    have hp2 : p2 ≠ [] := by
      intro h
      subst h
      simp at hlen
    have hp1 : p1 ≠ [] := by
      intro h
      subst h
      have hano := classes_ne_none p2 hp2
      rw [← hc] at hano
      simp [classes] at hano
    have hpool : poolOf p1 = poolOf p2 := by
      rw [poolOf, poolOf, hc]
    have h1 : 1 < poolOf p2 := poolOf_gt_one p2 hp2
    unfold entropy
    rw [if_neg hp1, if_neg hp2, hpool]
    have hlog : 0 < Real.logb 2 (poolOf p2) :=
      Real.logb_pos (by norm_num) (by exact_mod_cast h1)
    have hcast : (p1.length : ℝ) < (p2.length : ℝ) := by exact_mod_cast hlen
    exact mul_lt_mul_of_pos_right hcast hlog
  · intro p1 p2 hlen hne hcc
    show entropy p1 < entropy p2
    have hp2 : p2 ≠ [] := by
      intro h
      subst h
      exact hne (List.length_eq_zero.mp hlen)
    have hpool : poolOf p1 < poolOf p2 := poolC_strict_mono _ _ hcc
    unfold entropy
    rw [if_neg hne, if_neg hp2, ← hlen]
    have hlp : Real.logb 2 (poolOf p1) < Real.logb 2 (poolOf p2) :=
      Real.logb_lt_logb (by norm_num) (by exact_mod_cast poolC_pos (classes p1))
        (by exact_mod_cast hpool)
    have hlen0 : 0 < (p1.length : ℝ) := by
      have := List.length_pos.mpr hne
      exact_mod_cast this
    exact mul_lt_mul_of_pos_left hlp hlen0

/-- Concrete instances of the monotonicity theorem: adding a letter with the
classes fixed, and adding a digit class with the length fixed, both raise the
reported entropy. -/
theorem entropy_strict_mono_witness :
    (score_strength (("ab").data)).entropy < (score_strength (("abc").data)).entropy ∧
    (score_strength (("abcd").data)).entropy < (score_strength (("abc1").data)).entropy :=
  ⟨entropy_strict_mono.1 (("ab").data) (("abc").data) (by decide) (by decide),
   entropy_strict_mono.2 (("abcd").data) (("abc1").data) (by decide) (by decide) (by decide)⟩

/-! ## Lemmas about the breach check -/

/-- C2: the only data `check_breach` hands to the range lookup is the
five-character prefix of the uppercased digest, never the full hash or the
plaintext: two passwords whose hex digests agree on the first five characters
transmit identical data, the transmitted value has at most five characters,
and the whole breach count factors through the lookup's answer at that shared
prefix. -/
theorem check_breach_sends_only_prefix (sha1hex : List Char → List Char)
    (p1 p2 : List Char) (hagree : (sha1hex p1).take 5 = (sha1hex p2).take 5) :
    sentData sha1hex p1 = sentData sha1hex p2 ∧
    (sentData sha1hex p1).length ≤ 5 ∧
    ∀ lookup : List Char → List (List Char × Nat),
      check_breach sha1hex lookup p1 =
        scanPairs (lookup (sentData sha1hex p2)) (hashTail sha1hex p1) := by
  have hsent : sentData sha1hex p1 = sentData sha1hex p2 := by
    unfold sentData
    rw [← List.map_take, ← List.map_take, hagree]
  refine ⟨hsent, ?_, ?_⟩
  · rw [sentData, List.length_take]
    exact min_le_left _ _
  · intro lookup
    rw [check_breach, hsent]

/-- Concrete instance of the prefix-only transmission property for two
different passwords hashed by a constant digest function. -/
theorem check_breach_sends_only_prefix_witness :
    sentData (fun _ => digestW) (("a").data) = sentData (fun _ => digestW) (("b").data) ∧
    (sentData (fun _ => digestW) (("a").data)).length ≤ 5 ∧
    check_breach (fun _ => digestW) (fun _ => []) (("a").data) =
      scanPairs ((fun _ => ([] : List (List Char × Nat)))
        (sentData (fun _ => digestW) (("b").data))) (hashTail (fun _ => digestW) (("a").data)) := by
  obtain ⟨h1, h2, h3⟩ :=
    check_breach_sends_only_prefix (fun _ => digestW) (("a").data) (("b").data) rfl
  exact ⟨h1, h2, h3 (fun _ => [])⟩

/-- C4: `check_breach` returns the count of the first lookup pair whose suffix
equals, case-sensitively, the 35-character suffix of the uppercased digest,
and 0 when no pair matches; under a 40-character digest the split is exactly
5 + 35 and reassembles the uppercased digest. -/
theorem check_breach_first_match (sha1hex : List Char → List Char)
    (pairs : List (List Char × Nat)) (pw : List Char) :
    ((∀ p ∈ pairs, p.1 ≠ hashTail sha1hex pw) →
        check_breach sha1hex (fun _ => pairs) pw = 0) ∧
    (∀ l1 c l2, pairs = l1 ++ (hashTail sha1hex pw, c) :: l2 →
        (∀ p ∈ l1, p.1 ≠ hashTail sha1hex pw) →
        check_breach sha1hex (fun _ => pairs) pw = c) ∧
    ((sha1hex pw).length = 40 →
        (sentData sha1hex pw).length = 5 ∧ (hashTail sha1hex pw).length = 35 ∧
        sentData sha1hex pw ++ hashTail sha1hex pw = (sha1hex pw).map Char.toUpper) := by
  refine ⟨?_, ?_, ?_⟩
  · intro hnone
    unfold check_breach scanPairs
    rw [List.find?_eq_none.mpr ?_]
    intro p hp
    simpa using hnone p hp
  · intro l1 c l2 hpairs hleft
    unfold check_breach scanPairs
    rw [hpairs, List.find?_append, List.find?_eq_none.mpr ?_]
    · rw [List.find?_cons_of_pos _ (by simp)]
      rfl
    · intro p hp
      simpa using hleft p hp
  · intro h40
    refine ⟨?_, ?_, ?_⟩
    · rw [sentData, List.length_take, List.length_map, h40]
      decide
    · rw [hashTail, List.length_drop, List.length_map, h40]
    · rw [sentData, hashTail, List.take_append_drop]

/-- Concrete instance of the scan behaviour: the single matching pair's count
is returned, and the digest splits 5 + 35. -/
theorem check_breach_first_match_witness :
    check_breach (fun _ => digestW)
        (fun _ => [(hashTail (fun _ => digestW) (("pw").data), 42)]) (("pw").data) = 42 ∧
    (hashTail (fun _ => digestW) (("pw").data)).length = 35 := by
  obtain ⟨h0, hfirst, hsplit⟩ :=
    check_breach_first_match (fun _ => digestW)
      [(hashTail (fun _ => digestW) (("pw").data), 42)] (("pw").data)
  refine ⟨hfirst [] 42 [] rfl ?_, (hsplit (by decide)).2.1⟩
  intro p hp
  exact absurd hp (List.not_mem_nil p)

/-! ## Lemmas about the generator -/

/-- The element picked by `secrets.choice` belongs to the list. -/
theorem choiceAt_mem (g : Nat → Nat) (k : Nat) (l : List Char) (h : l ≠ []) :
    choiceAt g k l ∈ l := by
  have hlen : 0 < l.length := List.length_pos.mpr h
  have hlt : g k % l.length < l.length := Nat.mod_lt _ hlen
  unfold choiceAt
  rw [List.getD_eq_getElem?_getD, List.getElem?_eq_getElem hlt]
  exact List.getElem_mem hlt

/-- Prepending the displaced element to a one-point update is a permutation of
prepending the new element: the core of the swap argument. -/
theorem cons_getD_set_perm (a : Char) :
    ∀ (t : List Char) (m : Nat), m < t.length →
      List.Perm ((t.getD m ' ') :: (t.set m a)) (a :: t)
  | [], m, h => absurd h (by simp)
  | x :: t, 0, _ => by
      simpa using List.Perm.swap a x t
  | x :: t, m + 1, h => by
      simp only [List.getD_cons_succ, List.set_cons_succ]
      exact (List.Perm.swap x (t.getD m ' ') _).trans
        (((cons_getD_set_perm a t m (by simpa using h)).cons x).trans
          (List.Perm.swap a x t))

/-- A Fisher-Yates swap at two in-range positions permutes the list. -/
theorem swapL_perm :
    ∀ (l : List Char) (i j : Nat), i < l.length → j < l.length →
      List.Perm (swapL l i j) l
  | [], i, _, hi, _ => absurd hi (by simp)
  | a :: t, 0, 0, _, _ => by
      simp [swapL]
  | a :: t, 0, j + 1, _, hj => by
      unfold swapL
      simp only [List.getD_cons_succ, List.getD_cons_zero, List.set_cons_zero,
        List.set_cons_succ]
      exact cons_getD_set_perm a t j (by simpa using hj)
  | a :: t, i + 1, 0, hi, _ => by
      unfold swapL
      simp only [List.getD_cons_succ, List.getD_cons_zero, List.set_cons_zero,
        List.set_cons_succ]
      exact cons_getD_set_perm a t i (by simpa using hi)
  | a :: t, i + 1, j + 1, hi, hj => by
      unfold swapL
      simp only [List.getD_cons_succ, List.set_cons_succ]
      exact ((swapL_perm t i j (by simpa using hi) (by simpa using hj)).cons a)

/-- The Fisher-Yates loop permutes the character list. -/
theorem fisherYates_perm (g : Nat → Nat) :
    ∀ (i k : Nat) (l : List Char), i < l.length →
      List.Perm (fisherYates g k l i) l
  | 0, _, l, _ => List.Perm.refl l
  | i + 1, k, l, hi => by
      rw [fisherYates]
      have hj : g k % (i + 2) < l.length :=
        lt_of_lt_of_le (Nat.mod_lt _ (by omega)) (by omega)
      have hper : List.Perm (swapL l (i + 1) (g k % (i + 2))) l :=
        swapL_perm l (i + 1) _ hi hj
      have hlen : (swapL l (i + 1) (g k % (i + 2))).length = l.length := by
        simp [swapL]
      exact (fisherYates_perm g i (k + 1) _ (by omega)).trans hper

/-- The forced required-character count is one per enabled class plus one. -/
theorem requiredChars_length (g : Nat → Nat) (u d s : Bool) :
    (requiredChars g u d s).length =
      1 + (if u then 1 else 0) + (if d then 1 else 0) + (if s then 1 else 0) := by
  rcases u <;> rcases d <;> rcases s <;> simp [requiredChars]

/-- Normal form of a successful generation: the result is a permutation of the
required characters followed by the uniform fill, and has the requested
length. -/
theorem generate_password_ok (g : Nat → Nat) (len : Nat) (u d s : Bool)
    (h4 : 4 ≤ len) :
    ∃ pw, generate_password g len u d s = Except.ok pw ∧
      List.Perm pw (requiredChars g u d s ++
        (List.range (len - (requiredChars g u d s).length)).map
          (fun i => choiceAt g (4 + i) (genAlphabet u d s))) ∧
      pw.length = len := by
  have hreq4 : (requiredChars g u d s).length ≤ 4 := by
    rw [requiredChars_length]
    rcases u <;> rcases d <;> rcases s <;> simp
  have hreq1 : 1 ≤ (requiredChars g u d s).length := by
    rw [requiredChars_length]
    omega
  rw [generate_password, if_neg (by omega)]
  set required := requiredChars g u d s with hreq
  set chars := required ++ (List.range (len - required.length)).map
    (fun i => choiceAt g (4 + i) (genAlphabet u d s)) with hchars
  have hcl : chars.length = len := by
    rw [hchars]
    simp only [List.length_append, List.length_map, List.length_range]
    omega
  have hper : List.Perm (fisherYates g (4 + (len - required.length)) chars (chars.length - 1))
      chars := fisherYates_perm g _ _ chars (by omega)
  exact ⟨_, rfl, hper, by rw [hper.length_eq, hcl]⟩

/-- C7: `generate_password` fails with the invalid-argument error exactly when
the requested length is below 4, and for every valid length, flag setting and
random source the produced password has exactly the requested length. -/
theorem generate_password_length_contract (g : Nat → Nat) (len : Nat) (u d s : Bool) :
    ((∃ e, generate_password g len u d s = Except.error e) ↔ len < 4) ∧
    ∀ pw, generate_password g len u d s = Except.ok pw → pw.length = len := by
  by_cases h4 : len < 4
  · refine ⟨⟨fun _ => h4, fun _ => ?_⟩, fun pw hok => ?_⟩
    · exact ⟨_, by rw [generate_password, if_pos h4]⟩
    · rw [generate_password, if_pos h4] at hok
      exact absurd hok (by simp)
  · obtain ⟨pw0, hok0, _, hlen0⟩ := generate_password_ok g len u d s (by omega)
    refine ⟨⟨fun ⟨e, he⟩ => ?_, fun h => absurd h h4⟩, fun pw hok => ?_⟩
    · rw [hok0] at he
      exact absurd he (by simp)
    · rw [hok0] at hok
      obtain rfl : pw0 = pw := by simpa using hok
      exact hlen0

/-- Concrete instances of the length contract: length 3 raises, length 5 with
the zero stream produces the five-character password `A0!aa`. -/
theorem generate_password_length_contract_witness :
    (∃ e, generate_password (fun _ => 0) 3 true true true = Except.error e) ∧
    (("A0!aa").data).length = 5 :=
  ⟨(generate_password_length_contract (fun _ => 0) 3 true true true).1.mpr (by decide),
   (generate_password_length_contract (fun _ => 0) 5 true true true).2
     (("A0!aa").data) rfl⟩

/-- The combined alphabet always contains the 26 lowercase letters, so it is
never empty. -/
theorem genAlphabet_ne_nil (u d s : Bool) : genAlphabet u d s ≠ [] := by
  rcases u <;> rcases d <;> rcases s <;> decide

/-- With uppercase disabled the combined alphabet contains no uppercase
letter. -/
theorem genAlphabet_no_upper (d s : Bool) :
    ∀ c ∈ genAlphabet false d s, c ∉ ascii_uppercase := by
  rcases d <;> rcases s <;> decide

/-- With digits disabled the combined alphabet contains no digit. -/
theorem genAlphabet_no_digits (u s : Bool) :
    ∀ c ∈ genAlphabet u false s, c ∉ digitsChars := by
  rcases u <;> rcases s <;> decide

/-- With symbols disabled the combined alphabet contains no punctuation
character. -/
theorem genAlphabet_no_punct (u d : Bool) :
    ∀ c ∈ genAlphabet u d false, c ∉ punctuationChars := by
  rcases u <;> rcases d <;> decide

/-- Membership in a flag-guarded singleton forces the flag and the value. -/
theorem mem_ite_singleton {c x : Char} {b : Bool}
    (h : c ∈ if b then [x] else []) : b = true ∧ c = x := by
  rcases b
  · simp at h
  · simp at h
    exact ⟨rfl, h⟩

/-- Lowercase letters always belong to the combined alphabet. -/
theorem lower_mem_genAlphabet (u d s : Bool) {c : Char} (h : c ∈ ascii_lowercase) :
    c ∈ genAlphabet u d s :=
  List.mem_append_left _ (List.mem_append_left _ (List.mem_append_left _ h))

/-- With uppercase enabled, uppercase letters belong to the combined
alphabet. -/
theorem upper_mem_genAlphabet (d s : Bool) {c : Char} (h : c ∈ ascii_uppercase) :
    c ∈ genAlphabet true d s :=
  List.mem_append_left _ (List.mem_append_left _ (List.mem_append_right _ h))

/-- With digits enabled, digits belong to the combined alphabet. -/
theorem digits_mem_genAlphabet (u s : Bool) {c : Char} (h : c ∈ digitsChars) :
    c ∈ genAlphabet u true s :=
  List.mem_append_left _ (List.mem_append_right _ h)

/-- With symbols enabled, punctuation belongs to the combined alphabet. -/
theorem punct_mem_genAlphabet (u d : Bool) {c : Char} (h : c ∈ punctuationChars) :
    c ∈ genAlphabet u d true :=
  List.mem_append_right _ h

/-- Every forced required character lies in the combined alphabet. -/
theorem requiredChars_subset_alphabet (g : Nat → Nat) (u d s : Bool) :
    ∀ c ∈ requiredChars g u d s, c ∈ genAlphabet u d s := by
  intro c hc
  simp only [requiredChars, List.mem_append] at hc
  rcases hc with ((h0 | hA) | hB) | hC
  · obtain rfl := List.mem_singleton.mp h0
    exact lower_mem_genAlphabet u d s (choiceAt_mem g 0 _ (by decide))
  · obtain ⟨hu, rfl⟩ := mem_ite_singleton hA
    subst hu
    exact upper_mem_genAlphabet d s (choiceAt_mem g 1 _ (by decide))
  · obtain ⟨hd2, rfl⟩ := mem_ite_singleton hB
    subst hd2
    exact digits_mem_genAlphabet u s (choiceAt_mem g 2 _ (by decide))
  · obtain ⟨hs2, rfl⟩ := mem_ite_singleton hC
    subst hs2
    exact punct_mem_genAlphabet u d (choiceAt_mem g 3 _ (by decide))

/-- C8: for every valid length, flag setting and random source, the generated
password contains a lowercase letter, a character from each enabled optional
class, no character from any disabled class, and only characters of the
enabled combined alphabet. -/
theorem generate_password_class_contract (g : Nat → Nat) (len : Nat) (u d s : Bool)
    (h4 : 4 ≤ len) (pw : List Char)
    (hok : generate_password g len u d s = Except.ok pw) :
    (∃ c ∈ pw, c ∈ ascii_lowercase) ∧
    (u = true → ∃ c ∈ pw, c ∈ ascii_uppercase) ∧
    (d = true → ∃ c ∈ pw, c ∈ digitsChars) ∧
    (s = true → ∃ c ∈ pw, c ∈ punctuationChars) ∧
    (u = false → ∀ c ∈ pw, c ∉ ascii_uppercase) ∧
    (d = false → ∀ c ∈ pw, c ∉ digitsChars) ∧
    (s = false → ∀ c ∈ pw, c ∉ punctuationChars) ∧
    (∀ c ∈ pw, c ∈ genAlphabet u d s) := by
  obtain ⟨pw0, hok0, hper, hlen⟩ := generate_password_ok g len u d s h4
  rw [hok0] at hok
  have hpe : pw0 = pw := by simpa using hok
  rw [← hpe]
  have halpha : ∀ c ∈ pw0, c ∈ genAlphabet u d s := by
    intro c hc
    rcases List.mem_append.mp (hper.mem_iff.mp hc) with h1 | h2
    · exact requiredChars_subset_alphabet g u d s c h1
    · obtain ⟨i, _, rfl⟩ := List.mem_map.mp h2
      exact choiceAt_mem g _ _ (genAlphabet_ne_nil u d s)
  have hreq : ∀ c ∈ requiredChars g u d s, c ∈ pw0 := by
    intro c hc
    exact hper.mem_iff.mpr (List.mem_append_left _ hc)
  refine ⟨?_, ?_, ?_, ?_, ?_, ?_, ?_, halpha⟩
  · exact ⟨choiceAt g 0 ascii_lowercase,
      hreq _ (by rcases u <;> rcases d <;> rcases s <;> simp [requiredChars]),
      choiceAt_mem g 0 _ (by decide)⟩
  · intro hu
    subst hu
    exact ⟨choiceAt g 1 ascii_uppercase,
      hreq _ (by rcases d <;> rcases s <;> simp [requiredChars]),
      choiceAt_mem g 1 _ (by decide)⟩
  · intro hd
    subst hd
    exact ⟨choiceAt g 2 digitsChars,
      hreq _ (by rcases u <;> rcases s <;> simp [requiredChars]),
      choiceAt_mem g 2 _ (by decide)⟩
  · intro hs
    subst hs
    exact ⟨choiceAt g 3 punctuationChars,
      hreq _ (by rcases u <;> rcases d <;> simp [requiredChars]),
      choiceAt_mem g 3 _ (by decide)⟩
  · intro hu
    subst hu
    exact fun c hc => genAlphabet_no_upper d s c (halpha c hc)
  · intro hd
    subst hd
    exact fun c hc => genAlphabet_no_digits u s c (halpha c hc)
  · intro hs
    subst hs
    exact fun c hc => genAlphabet_no_punct u d c (halpha c hc)

/-- Concrete instance of the class contract: the password generated from the
zero stream at length 5 contains a lowercase letter and an uppercase letter. -/
theorem generate_password_class_contract_witness :
    (∃ c ∈ (("A0!aa").data), c ∈ ascii_lowercase) ∧
    (∃ c ∈ (("A0!aa").data), c ∈ ascii_uppercase) := by
  obtain h := generate_password_class_contract (fun _ => 0) 5 true true true
    (by decide) (("A0!aa").data) rfl
  exact ⟨h.1, h.2.1 rfl⟩

/-- C10: past the length validation the forced required-character list has one
entry for lowercase plus one per enabled optional class, hence at most 4
entries and never more than the requested length, the remaining fill count is
exact (no under-fill), and generation always succeeds with a full-length
password. -/
theorem generate_password_no_underfill (g : Nat → Nat) (len : Nat) (u d s : Bool)
    (h4 : 4 ≤ len) :
    (requiredChars g u d s).length =
      1 + (if u then 1 else 0) + (if d then 1 else 0) + (if s then 1 else 0) ∧
    (requiredChars g u d s).length ≤ 4 ∧
    (requiredChars g u d s).length ≤ len ∧
    len - (requiredChars g u d s).length + (requiredChars g u d s).length = len ∧
    ∃ pw, generate_password g len u d s = Except.ok pw ∧ pw.length = len := by
  have h := requiredChars_length g u d s
  have hle4 : (requiredChars g u d s).length ≤ 4 := by
    rw [h]
    rcases u <;> rcases d <;> rcases s <;> simp
  refine ⟨h, hle4, by omega, by omega, ?_⟩
  obtain ⟨pw, hok, _, hlen⟩ := generate_password_ok g len u d s h4
  exact ⟨pw, hok, hlen⟩

/-- Concrete instance of the no-under-fill property: with all classes enabled
the required list has 4 entries and a length-5 request succeeds in full. -/
theorem generate_password_no_underfill_witness :
    (requiredChars (fun _ => 0) true true true).length = 4 ∧
    ∃ pw, generate_password (fun _ => 0) 5 true true true = Except.ok pw ∧
      pw.length = 5 := by
  obtain ⟨h1, _, _, _, h5⟩ :=
    generate_password_no_underfill (fun _ => 0) 5 true true true (by decide)
  exact ⟨by simpa using h1, h5⟩

/-! ## Lemmas about the email aggregator -/

/-- Lookup after appending a fresh single entry. -/
theorem mapFind_append_single (m : BreachMap) (k : List Char) (v : Breach)
    (q : List Char) :
    mapFind (m ++ [(k, v)]) q = (mapFind m q).or (if q = k then some v else none) := by
  unfold mapFind
  rw [List.find?_append]
  cases hf : m.find? (fun p => p.1 == q)
  · by_cases hqk : q = k
    · simp [hf, hqk, List.find?_cons]
    · simp [hf, hqk, List.find?_cons, Ne.symm hqk]
  · by_cases hqk : q = k <;> simp [hf, hqk]

/-- Lookup after a first-writer-wins insert: an existing binding survives, a
new key binds the inserted value. -/
theorem mapFind_addIfAbsent (m : BreachMap) (k : List Char) (v : Breach)
    (q : List Char) :
    mapFind (addIfAbsent m k v) q =
      (mapFind m q).or (if q = k then some v else none) := by
  unfold addIfAbsent
  by_cases hany : m.any (fun p => p.1 == k) = true
  · rw [if_pos hany]
    by_cases hqk : q = k
    · subst hqk
      have hs : (m.find? (fun p => p.1 == q)).isSome := by
        rw [List.find?_isSome]
        obtain ⟨p, hp, hpk⟩ := List.any_eq_true.mp hany
        exact ⟨p, hp, hpk⟩
      obtain ⟨p, hp⟩ := Option.isSome_iff_exists.mp hs
      unfold mapFind
      rw [hp]
      simp
    · simp [hqk]
  · rw [if_neg hany]
    exact mapFind_append_single m k v q

/-- Overwriting a key leaves lookups at other keys unchanged. -/
theorem mapFind_overwrite (k : List Char) (v : Breach) (q : List Char)
    (hqk : q ≠ k) :
    ∀ m : BreachMap,
      mapFind (m.map (fun p => if p.1 == k then (k, v) else p)) q = mapFind m q := by
  intro m
  induction m with
  | nil => rfl
  | cons p t ih =>
      unfold mapFind at ih ⊢
      by_cases hpk : p.1 = k
      · have h1 : (if p.1 == k then (k, v) else p) = (k, v) := by simp [hpk]
        rw [List.map_cons, h1, List.find?_cons_of_neg _ (by simpa using Ne.symm hqk),
          List.find?_cons_of_neg _ (by simp [hpk]; exact Ne.symm hqk)]
        exact ih
      · have h1 : (if p.1 == k then (k, v) else p) = p := by simp [hpk]
        rw [List.map_cons, h1]
        by_cases hpq : p.1 = q
        · rw [List.find?_cons_of_pos _ (by simpa using hpq),
            List.find?_cons_of_pos _ (by simpa using hpq)]
        · rw [List.find?_cons_of_neg _ (by simpa using hpq),
            List.find?_cons_of_neg _ (by simpa using hpq)]
          exact ih

/-- Overwriting a present key makes the lookup at that key return the new
value. -/
theorem mapFind_overwrite_hit (k : List Char) (v : Breach) :
    ∀ m : BreachMap, m.any (fun p => p.1 == k) = true →
      mapFind (m.map (fun p => if p.1 == k then (k, v) else p)) k = some v := by
  intro m
  induction m with
  | nil => intro h; simp at h
  | cons p t ih =>
      intro hany
      unfold mapFind
      by_cases hpk : p.1 = k
      · have h1 : (if p.1 == k then (k, v) else p) = (k, v) := by simp [hpk]
        rw [List.map_cons, h1, List.find?_cons_of_pos _ (by simp)]
        rfl
      · have h1 : (if p.1 == k then (k, v) else p) = p := by simp [hpk]
        have hany' : t.any (fun p => p.1 == k) = true := by
          rcases List.any_eq_true.mp hany with ⟨x, hx, hxk⟩
          rcases List.mem_cons.mp hx with rfl | hxt
          · exact absurd (by simpa using hxk) hpk
          · exact List.any_eq_true.mpr ⟨x, hxt, hxk⟩
        rw [List.map_cons, h1, List.find?_cons_of_neg _ (by simpa using hpk)]
        exact ih hany'

/-- Lookup after a dict assignment `m[k] = v`: the assigned key now maps to
the value, every other key is untouched. -/
theorem mapFind_putKey (m : BreachMap) (k : List Char) (v : Breach)
    (q : List Char) :
    mapFind (putKey m k v) q = if q = k then some v else mapFind m q := by
  unfold putKey
  by_cases hany : m.any (fun p => p.1 == k) = true
  · rw [if_pos hany]
    by_cases hqk : q = k
    · subst hqk
      rw [if_pos rfl]
      exact mapFind_overwrite_hit q v m hany
    · rw [if_neg hqk]
      exact mapFind_overwrite k v q hqk m
  · rw [if_neg hany, mapFind_append_single]
    by_cases hqk : q = k
    · subst hqk
      have hnone : mapFind m q = none := by
        unfold mapFind
        rw [List.find?_eq_none.mpr]
        · rfl
        · intro p hp
          simp only [Bool.not_eq_true, beq_eq_false_iff_ne, ne_eq]
          intro hpk
          exact hany (List.any_eq_true.mpr ⟨p, hp, by simp [hpk]⟩)
      rw [hnone]
      simp
    · simp [hqk, Option.or_none]

/-- Lookup after the whole XposedOrNot insertion pass: an existing binding
survives, otherwise the first name with the queried key provides the value. -/
theorem mapFind_applyA (names : List (List Char)) :
    ∀ (m : BreachMap) (q : List Char),
      mapFind (applyA m names) q =
        (mapFind m q).or ((names.find? (fun n => lowerS n == q)).map mkA) := by
  induction names with
  | nil =>
      intro m q
      simp [applyA]
  | cons n rest ih =>
      intro m q
      show mapFind (applyA (addIfAbsent m (lowerS n) (mkA n)) rest) q = _
      rw [ih, mapFind_addIfAbsent, Option.or_assoc]
      by_cases hq : q = lowerS n
      · rw [List.find?_cons_of_pos _ (by simp [hq]), if_pos hq]
        simp
      · rw [List.find?_cons_of_neg _ (by simpa using fun h => hq (Eq.symm h)), if_neg hq]
        simp

/-- Lookup after the whole LeakCheck upsert pass: the last record with the
queried key wins, otherwise the previous binding survives. -/
theorem mapFind_applyB (srcs : List BRecord) :
    ∀ (m : BreachMap) (q : List Char),
      mapFind (applyB m srcs) q =
        ((srcs.reverse.find? (fun r => lowerS r.name == q)).map mkB).or (mapFind m q) := by
  induction srcs with
  | nil =>
      intro m q
      simp [applyB]
  | cons r rest ih =>
      intro m q
      show mapFind (applyB (putKey m (lowerS r.name) (mkB r)) rest) q = _
      rw [ih, mapFind_putKey, List.reverse_cons, List.find?_append]
      cases hrf : rest.reverse.find? (fun r2 => lowerS r2.name == q)
      · by_cases hq : q = lowerS r.name
        · rw [if_pos hq]
          simp [List.find?_cons, hq]
        · rw [if_neg hq]
          simp [List.find?_cons, Ne.symm hq, hq]
      · simp

/-- First-writer-wins inserts keep every binding keyed by its record's
lowercased name. -/
theorem wellKeyed_addIfAbsent (m : BreachMap) (k : List Char) (v : Breach)
    (hm : ∀ p ∈ m, p.1 = lowerS p.2.name) (hv : k = lowerS v.name) :
    ∀ p ∈ addIfAbsent m k v, p.1 = lowerS p.2.name := by
  unfold addIfAbsent
  split
  · exact hm
  · intro p hp
    rcases List.mem_append.mp hp with h | h
    · exact hm p h
    · obtain rfl := List.mem_singleton.mp h
      exact hv

/-- Dict assignment keeps every binding keyed by its record's lowercased
name. -/
theorem wellKeyed_putKey (m : BreachMap) (k : List Char) (v : Breach)
    (hm : ∀ p ∈ m, p.1 = lowerS p.2.name) (hv : k = lowerS v.name) :
    ∀ p ∈ putKey m k v, p.1 = lowerS p.2.name := by
  unfold putKey
  split
  · intro p hp
    obtain ⟨p0, hp0, rfl⟩ := List.mem_map.mp hp
    by_cases h : (p0.1 == k) = true
    · rw [if_pos h]
      exact hv
    · rw [if_neg h]
      exact hm p0 hp0
  · intro p hp
    rcases List.mem_append.mp hp with h | h
    · exact hm p h
    · obtain rfl := List.mem_singleton.mp h
      exact hv

/-- The XposedOrNot pass keeps the map well keyed. -/
theorem wellKeyed_applyA (names : List (List Char)) :
    ∀ m : BreachMap, (∀ p ∈ m, p.1 = lowerS p.2.name) →
      ∀ p ∈ applyA m names, p.1 = lowerS p.2.name := by
  induction names with
  | nil => exact fun m hm => hm
  | cons n rest ih =>
      intro m hm
      exact ih _ (wellKeyed_addIfAbsent m (lowerS n) (mkA n) hm rfl)

/-- The LeakCheck pass keeps the map well keyed. -/
theorem wellKeyed_applyB (srcs : List BRecord) :
    ∀ m : BreachMap, (∀ p ∈ m, p.1 = lowerS p.2.name) →
      ∀ p ∈ applyB m srcs, p.1 = lowerS p.2.name := by
  induction srcs with
  | nil => exact fun m hm => hm
  | cons r rest ih =>
      intro m hm
      exact ih _ (wellKeyed_putKey m (lowerS r.name) (mkB r) hm rfl)

/-- First-writer-wins inserts keep the key list duplicate-free. -/
theorem keysNodup_addIfAbsent (m : BreachMap) (k : List Char) (v : Breach)
    (hm : (m.map (fun p => p.1)).Nodup) :
    ((addIfAbsent m k v).map (fun p => p.1)).Nodup := by
  unfold addIfAbsent
  by_cases hany : m.any (fun p => p.1 == k) = true
  · rw [if_pos hany]
    exact hm
  · rw [if_neg hany, List.map_append]
    rw [List.nodup_append]
    refine ⟨hm, by simp, ?_⟩
    intro a ha hb
    obtain ⟨p, hp, hpk⟩ := List.mem_map.mp ha
    obtain rfl : a = k := by simpa using hb
    exact hany (List.any_eq_true.mpr ⟨p, hp, by simp [hpk]⟩)

/-- Dict assignment keeps the key list duplicate-free (an existing key keeps
its position, a new key is appended). -/
theorem keysNodup_putKey (m : BreachMap) (k : List Char) (v : Breach)
    (hm : (m.map (fun p => p.1)).Nodup) :
    ((putKey m k v).map (fun p => p.1)).Nodup := by
  unfold putKey
  by_cases hany : m.any (fun p => p.1 == k) = true
  · rw [if_pos hany]
    have hkeys : (m.map (fun p => if p.1 == k then (k, v) else p)).map (fun p => p.1) =
        m.map (fun p => p.1) := by
      rw [List.map_map]
      apply List.map_congr_left
      intro p hp
      by_cases h : (p.1 == k) = true
      · simp only [Function.comp_apply, if_pos h]
        exact (by simpa using h : p.1 = k).symm
      · simp only [Function.comp_apply, if_neg h]
    rw [hkeys]
    exact hm
  · rw [if_neg hany, List.map_append]
    rw [List.nodup_append]
    refine ⟨hm, by simp, ?_⟩
    intro a ha hb
    obtain ⟨p, hp, hpk⟩ := List.mem_map.mp ha
    obtain rfl : a = k := by simpa using hb
    exact hany (List.any_eq_true.mpr ⟨p, hp, by simp [hpk]⟩)

/-- The XposedOrNot pass keeps the key list duplicate-free. -/
theorem keysNodup_applyA (names : List (List Char)) :
    ∀ m : BreachMap, (m.map (fun p => p.1)).Nodup →
      ((applyA m names).map (fun p => p.1)).Nodup := by
  induction names with
  | nil => exact fun m hm => hm
  | cons n rest ih =>
      intro m hm
      exact ih _ (keysNodup_addIfAbsent m (lowerS n) (mkA n) hm)

/-- The LeakCheck pass keeps the key list duplicate-free. -/
theorem keysNodup_applyB (srcs : List BRecord) :
    ∀ m : BreachMap, (m.map (fun p => p.1)).Nodup →
      ((applyB m srcs).map (fun p => p.1)).Nodup := by
  induction srcs with
  | nil => exact fun m hm => hm
  | cons r rest ih =>
      intro m hm
      exact ih _ (keysNodup_putKey m (lowerS r.name) (mkB r) hm)

/-- XposedOrNot-sourced records never carry a date, through both passes. -/
theorem datesOk_addIfAbsent (m : BreachMap) (k : List Char) (n : List Char)
    (hm : ∀ p ∈ m, p.2.source = ("XposedOrNot").data → p.2.date = none) :
    ∀ p ∈ addIfAbsent m k (mkA n), p.2.source = ("XposedOrNot").data → p.2.date = none := by
  unfold addIfAbsent
  split
  · exact hm
  · intro p hp
    rcases List.mem_append.mp hp with h | h
    · exact hm p h
    · obtain rfl := List.mem_singleton.mp h
      intro _
      rfl

/-- LeakCheck upserts only write LeakCheck-sourced records, so the
no-date-for-XposedOrNot invariant survives. -/
theorem datesOk_putKey (m : BreachMap) (k : List Char) (r : BRecord)
    (hm : ∀ p ∈ m, p.2.source = ("XposedOrNot").data → p.2.date = none) :
    ∀ p ∈ putKey m k (mkB r), p.2.source = ("XposedOrNot").data → p.2.date = none := by
  have hsrc : (mkB r).source ≠ ("XposedOrNot").data := by
    show ("LeakCheck").data ≠ ("XposedOrNot").data
    decide
  unfold putKey
  split
  · intro p hp
    obtain ⟨p0, hp0, rfl⟩ := List.mem_map.mp hp
    by_cases h : (p0.1 == k) = true
    · rw [if_pos h]
      intro hx
      exact absurd hx hsrc
    · rw [if_neg h]
      exact hm p0 hp0
  · intro p hp
    rcases List.mem_append.mp hp with h | h
    · exact hm p h
    · obtain rfl := List.mem_singleton.mp h
      intro hx
      exact absurd hx hsrc

/-- The no-date invariant through the whole XposedOrNot pass. -/
theorem datesOk_applyA (names : List (List Char)) :
    ∀ m : BreachMap, (∀ p ∈ m, p.2.source = ("XposedOrNot").data → p.2.date = none) →
      ∀ p ∈ applyA m names, p.2.source = ("XposedOrNot").data → p.2.date = none := by
  induction names with
  | nil => exact fun m hm => hm
  | cons n rest ih =>
      intro m hm
      exact ih _ (datesOk_addIfAbsent m (lowerS n) n hm)

/-- The no-date invariant through the whole LeakCheck pass. -/
theorem datesOk_applyB (srcs : List BRecord) :
    ∀ m : BreachMap, (∀ p ∈ m, p.2.source = ("XposedOrNot").data → p.2.date = none) →
      ∀ p ∈ applyB m srcs, p.2.source = ("XposedOrNot").data → p.2.date = none := by
  induction srcs with
  | nil => exact fun m hm => hm
  | cons r rest ih =>
      intro m hm
      exact ih _ (datesOk_putKey m (lowerS r.name) r hm)

/-- A successful lookup exhibits a member of the breaches list. -/
theorem mem_of_mapFind (m : BreachMap) (q : List Char) (b : Breach)
    (h : mapFind m q = some b) : b ∈ m.map (fun p => p.2) := by
  unfold mapFind at h
  cases hf : m.find? (fun p => p.1 == q) with
  | none => rw [hf] at h; exact absurd h (by simp)
  | some p =>
      rw [hf] at h
      obtain rfl : p.2 = b := by simpa using h
      exact List.mem_map_of_mem _ (List.mem_of_find?_eq_some hf)

/-- Inserts never shrink the map. -/
theorem addIfAbsent_length (m : BreachMap) (k : List Char) (v : Breach) :
    m.length ≤ (addIfAbsent m k v).length := by
  unfold addIfAbsent
  split <;> simp

/-- Assignments never shrink the map. -/
theorem putKey_length (m : BreachMap) (k : List Char) (v : Breach) :
    m.length ≤ (putKey m k v).length := by
  unfold putKey
  split <;> simp

/-- The XposedOrNot pass never shrinks the map. -/
theorem applyA_length (names : List (List Char)) :
    ∀ m : BreachMap, m.length ≤ (applyA m names).length := by
  induction names with
  | nil => exact fun m => Nat.le_refl _
  | cons n rest ih =>
      intro m
      exact (addIfAbsent_length m (lowerS n) (mkA n)).trans (ih _)

/-- The LeakCheck pass never shrinks the map. -/
theorem applyB_length (srcs : List BRecord) :
    ∀ m : BreachMap, m.length ≤ (applyB m srcs).length := by
  induction srcs with
  | nil => exact fun m => Nat.le_refl _
  | cons r rest ih =>
      intro m
      exact (putKey_length m (lowerS r.name) (mkB r)).trans (ih _)

/-- At least one name makes the XposedOrNot map non-empty. -/
theorem applyA_pos (n : List Char) (rest : List (List Char)) :
    0 < (applyA [] (n :: rest)).length := by
  have h := applyA_length rest [(lowerS n, mkA n)]
  show 0 < (applyA (addIfAbsent [] (lowerS n) (mkA n)) rest).length
  have he : addIfAbsent [] (lowerS n) (mkA n) = [(lowerS n, mkA n)] := rfl
  rw [he]
  simp only [List.length_singleton] at h
  omega

/-- At least one record makes the LeakCheck map non-empty. -/
theorem applyB_pos (r : BRecord) (rest : List BRecord) :
    0 < (applyB [] (r :: rest)).length := by
  have h := applyB_length rest [(lowerS r.name, mkB r)]
  show 0 < (applyB (putKey [] (lowerS r.name) (mkB r)) rest).length
  have he : putKey [] (lowerS r.name) (mkB r) = [(lowerS r.name, mkB r)] := rfl
  rw [he]
  simp only [List.length_singleton] at h
  omega

/-- In a list of records with pairwise distinct lowercased names, the search
for a given record's key finds exactly that record. -/
theorem find?_of_nodup_keyed :
    ∀ l : List BRecord, ((l.map (fun r => lowerS r.name)).Nodup) →
      ∀ r ∈ l, l.find? (fun r2 => lowerS r2.name == lowerS r.name) = some r := by
  intro l
  induction l with
  | nil =>
      intro _ r hr
      exact absurd hr (List.not_mem_nil r)
  | cons x t ih =>
      intro hnd r hr
      have hnd' : (lowerS x.name :: t.map (fun r2 => lowerS r2.name)).Nodup := by
        simpa using hnd
      rcases List.mem_cons.mp hr with rfl | hrt
      · rw [List.find?_cons_of_pos _ (by simp)]
      · have hx : lowerS x.name ≠ lowerS r.name := by
          intro he
          have hmem : lowerS r.name ∈ t.map (fun r2 => lowerS r2.name) :=
            List.mem_map_of_mem _ hrt
          rw [← he] at hmem
          exact (List.nodup_cons.mp hnd').1 hmem
        rw [List.find?_cons_of_neg _ (by simpa using hx)]
        exact ih (List.nodup_cons.mp hnd').2 r hrt

/-- C3: for a valid email and successful responses from both sources, the
merged breaches list has pairwise distinct lowercased names; XposedOrNot
entries never carry a date; each XposedOrNot name binds first-writer-wins to
the first name with its lowercased key; when LeakCheck reports records, every
record's key ends up bound to a LeakCheck-sourced entry, and when its keys are
distinct the surviving entry is exactly that record's name, date and source. -/
theorem check_email_breach_merge (email : List Char)
    (raw : List (List (List Char) ⊕ List Char)) (s : Bool) (f : Nat)
    (srcs : List BRecord) (hv : emailValid email = true) :
    (((check_email_breach email (.ok raw) (.ok s f srcs)).breaches.map
        (fun b => lowerS b.name)).Nodup) ∧
    (∀ b ∈ (check_email_breach email (.ok raw) (.ok s f srcs)).breaches,
        b.source = ("XposedOrNot").data → b.date = none) ∧
    (∀ n ∈ flattenNames raw,
        mapFind (stepA (.ok raw)).1 (lowerS n) =
          ((flattenNames raw).find? (fun n2 => lowerS n2 == lowerS n)).map mkA) ∧
    (s = true → 0 < f → ∀ r ∈ srcs,
        ∃ b ∈ (check_email_breach email (.ok raw) (.ok s f srcs)).breaches,
          lowerS b.name = lowerS r.name ∧ b.source = ("LeakCheck").data) ∧
    (s = true → 0 < f → (srcs.map (fun r => lowerS r.name)).Nodup →
        ∀ r ∈ srcs,
          ∃ b ∈ (check_email_breach email (.ok raw) (.ok s f srcs)).breaches,
            b.name = r.name ∧ b.date = r.date ∧ b.source = ("LeakCheck").data) := by
  have hne : ¬(emailValid email = false) := by simp [hv]
  have hbr : (check_email_breach email (.ok raw) (.ok s f srcs)).breaches =
      (if s = true ∧ 0 < f then applyB (applyA [] (flattenNames raw)) srcs
       else applyA [] (flattenNames raw)).map (fun p => p.2) := by
    rw [check_email_breach, if_neg hne]
    rfl
  have hWK1 := wellKeyed_applyA (flattenNames raw) []
    (fun p hp => absurd hp (List.not_mem_nil p))
  have hND1 := keysNodup_applyA (flattenNames raw) [] (by simp)
  have hDO1 := datesOk_applyA (flattenNames raw) []
    (fun p hp => absurd hp (List.not_mem_nil p))
  have hWK2 : ∀ p ∈ (if s = true ∧ 0 < f then
        applyB (applyA [] (flattenNames raw)) srcs
      else applyA [] (flattenNames raw)), p.1 = lowerS p.2.name := by
    split
    · exact wellKeyed_applyB srcs _ hWK1
    · exact hWK1
  have hND2 : (((if s = true ∧ 0 < f then
        applyB (applyA [] (flattenNames raw)) srcs
      else applyA [] (flattenNames raw))).map (fun p => p.1)).Nodup := by
    split
    · exact keysNodup_applyB srcs _ hND1
    · exact hND1
  have hDO2 : ∀ p ∈ (if s = true ∧ 0 < f then
        applyB (applyA [] (flattenNames raw)) srcs
      else applyA [] (flattenNames raw)),
      p.2.source = ("XposedOrNot").data → p.2.date = none := by
    split
    · exact datesOk_applyB srcs _ hDO1
    · exact hDO1
  refine ⟨?_, ?_, ?_, ?_, ?_⟩
  · rw [hbr, List.map_map]
    have hmm : (if s = true ∧ 0 < f then
          applyB (applyA [] (flattenNames raw)) srcs
        else applyA [] (flattenNames raw)).map
          ((fun b => lowerS b.name) ∘ (fun p => p.2)) =
        (if s = true ∧ 0 < f then
          applyB (applyA [] (flattenNames raw)) srcs
        else applyA [] (flattenNames raw)).map (fun p => p.1) :=
      List.map_congr_left (fun p hp => by
        simp only [Function.comp_apply]
        exact (hWK2 p hp).symm)
    rw [hmm]
    exact hND2
  · intro b hb hsrc
    rw [hbr] at hb
    obtain ⟨p, hp, rfl⟩ := List.mem_map.mp hb
    exact hDO2 p hp hsrc
  · intro n _
    show mapFind (applyA [] (flattenNames raw)) (lowerS n) = _
    rw [mapFind_applyA]
    have h0 : mapFind ([] : BreachMap) (lowerS n) = none := rfl
    rw [h0, Option.none_or]
  · intro hs hf r hr
    subst hs
    have hgate : (true = true ∧ 0 < f) := ⟨rfl, hf⟩
    have hsome : (srcs.reverse.find? (fun r2 => lowerS r2.name == lowerS r.name)).isSome :=
      List.find?_isSome.mpr ⟨r, List.mem_reverse.mpr hr, by simp⟩
    obtain ⟨x, hx⟩ := Option.isSome_iff_exists.mp hsome
    have hmf : mapFind (applyB (applyA [] (flattenNames raw)) srcs) (lowerS r.name) =
        some (mkB x) := by
      rw [mapFind_applyB, hx]
      simp
    refine ⟨mkB x, ?_, ?_, rfl⟩
    · rw [hbr, if_pos hgate]
      exact mem_of_mapFind _ _ _ hmf
    · have hpred := List.find?_some hx
      simpa [mkB] using hpred
  · intro hs hf hnd r hr
    subst hs
    have hgate : (true = true ∧ 0 < f) := ⟨rfl, hf⟩
    have hndrev : (srcs.reverse.map (fun r2 => lowerS r2.name)).Nodup := by
      rw [List.map_reverse]
      exact List.nodup_reverse.mpr hnd
    have hx : srcs.reverse.find? (fun r2 => lowerS r2.name == lowerS r.name) = some r :=
      find?_of_nodup_keyed srcs.reverse hndrev r (List.mem_reverse.mpr hr)
    have hmf : mapFind (applyB (applyA [] (flattenNames raw)) srcs) (lowerS r.name) =
        some (mkB r) := by
      rw [mapFind_applyB, hx]
      simp
    refine ⟨mkB r, ?_, rfl, rfl, rfl⟩
    rw [hbr, if_pos hgate]
    exact mem_of_mapFind _ _ _ hmf

/-- Concrete instance of the merge: XposedOrNot reports "Adobe", LeakCheck
reports "ADOBE" with a date; the surviving entry for the shared lowercased
key carries LeakCheck's name, date and source. -/
theorem check_email_breach_merge_witness :
    ∃ b ∈ (check_email_breach (("a@b.c").data) (.ok [Sum.inl [("Adobe").data]])
        (.ok true 1 [⟨("ADOBE").data, some (("2013-10").data)⟩])).breaches,
      b.name = ("ADOBE").data ∧ b.date = some (("2013-10").data) ∧
        b.source = ("LeakCheck").data := by
  obtain h := check_email_breach_merge (("a@b.c").data) [Sum.inl [("Adobe").data]]
    true 1 [⟨("ADOBE").data, some (("2013-10").data)⟩] (by decide)
  exact h.2.2.2.2 rfl (by decide) (by decide)
    ⟨("ADOBE").data, some (("2013-10").data)⟩ (List.mem_singleton.mpr rfl)

/-- C5: for a valid email, when exactly one source raises, the report carries
exactly one error tagged with the failing source, exactly one checked source
(the successful one), and `exposed` equals whether the successful source
contributed at least one breach. -/
theorem check_email_breach_partial_failure (email : List Char)
    (ra : ASourceResult) (rb : BSourceResult) (hv : emailValid email = true) :
    (∀ msg s f srcs, ra = .err msg → rb = .ok s f srcs →
        (check_email_breach email ra rb).errors = [("XposedOrNot: ").data ++ msg] ∧
        (check_email_breach email ra rb).sources_checked = [("LeakCheck").data] ∧
        (check_email_breach email ra rb).exposed = bContrib rb) ∧
    (∀ msg, rb = .err msg → ra.isErr = false →
        (check_email_breach email ra rb).errors = [("LeakCheck: ").data ++ msg] ∧
        (check_email_breach email ra rb).sources_checked = [("XposedOrNot").data] ∧
        (check_email_breach email ra rb).exposed = aContrib ra) := by
  have hne : ¬(emailValid email = false) := by simp [hv]
  constructor
  · rintro msg s f srcs rfl rfl
    rw [check_email_breach, if_neg hne]
    refine ⟨rfl, rfl, ?_⟩
    show decide (0 < (if s = true ∧ 0 < f then applyB [] srcs else []).length) = _
    by_cases hg : s = true ∧ 0 < f
    · rw [if_pos hg]
      obtain ⟨rfl, hf⟩ := hg
      cases srcs with
      | nil =>
          show decide (0 < ([] : BreachMap).length) = (true && decide (0 < f) && !(List.isEmpty []))
          simp
      | cons r rest =>
          have hpos := applyB_pos r rest
          show _ = (true && decide (0 < f) && !(List.isEmpty (r :: rest)))
          simp [hpos, hf]
    · rw [if_neg hg]
      show decide (0 < ([] : BreachMap).length) = (s && decide (0 < f) && !srcs.isEmpty)
      rcases Decidable.not_and_iff_or_not.mp hg with h | h
      · have hs : s = false := by
          rcases s
          · rfl
          · exact absurd rfl h
        simp [hs]
      · have hf : f = 0 := by omega
        simp [hf]
  · intro msg hrb hra
    subst hrb
    cases ra with
    | err m2 => simp [ASourceResult.isErr] at hra
    | notFound =>
        rw [check_email_breach, if_neg hne]
        exact ⟨rfl, rfl, rfl⟩
    | ok raw =>
        rw [check_email_breach, if_neg hne]
        refine ⟨rfl, rfl, ?_⟩
        show decide (0 < (applyA [] (flattenNames raw)).length) =
          !(flattenNames raw).isEmpty
        cases hfn : flattenNames raw with
        | nil => simp [hfn, applyA]
        | cons n rest =>
            have hpos := applyA_pos n rest
            simp [hpos]

/-- Concrete instance of the partial-failure contract: XposedOrNot raises,
LeakCheck succeeds with one record. -/
theorem check_email_breach_partial_failure_witness :
    (check_email_breach (("a@b.c").data) (.err (("boom").data))
        (.ok true 1 [⟨("X").data, none⟩])).errors =
      [("XposedOrNot: ").data ++ ("boom").data] ∧
    (check_email_breach (("a@b.c").data) (.err (("boom").data))
        (.ok true 1 [⟨("X").data, none⟩])).sources_checked = [("LeakCheck").data] ∧
    (check_email_breach (("a@b.c").data) (.err (("boom").data))
        (.ok true 1 [⟨("X").data, none⟩])).exposed =
      bContrib (.ok true 1 [⟨("X").data, none⟩]) :=
  (check_email_breach_partial_failure (("a@b.c").data) (.err (("boom").data))
    (.ok true 1 [⟨("X").data, none⟩]) (by decide)).1
    (("boom").data) true 1 [⟨("X").data, none⟩] rfl rfl

/-! ## Lemmas about the sequential-pattern warnings -/

/-- Membership in one step of the order-preserving dedup accumulator. -/
theorem mem_dedup_step (x s : List Char) (acc : List (List Char)) :
    x ∈ (if s ∈ acc then acc else acc ++ [s]) ↔ x ∈ acc ∨ x = s := by
  split
  · rename_i hs
    constructor
    · exact Or.inl
    · rintro (h | rfl)
      · exact h
      · exact hs
  · simp [List.mem_append]

/-- The dedup pass preserves membership exactly. -/
theorem mem_pyDedup (x : List Char) (l : List (List Char)) :
    x ∈ pyDedup l ↔ x ∈ l := by
  have hgen : ∀ (l acc : List (List Char)),
      x ∈ l.foldl (fun acc s => if s ∈ acc then acc else acc ++ [s]) acc ↔
        x ∈ acc ∨ x ∈ l := by
    intro l
    induction l with
    | nil => intro acc; simp
    | cons s rest ih =>
        intro acc
        rw [List.foldl_cons, ih, mem_dedup_step]
        simp [List.mem_cons]
        tauto
  rw [pyDedup, hgen]
  simp

/-- The dedup output has no duplicates. -/
theorem nodup_pyDedup (l : List (List Char)) : (pyDedup l).Nodup := by
  have hgen : ∀ (l acc : List (List Char)), acc.Nodup →
      (l.foldl (fun acc s => if s ∈ acc then acc else acc ++ [s]) acc).Nodup := by
    intro l
    induction l with
    | nil => exact fun acc h => h
    | cons s rest ih =>
        intro acc hacc
        rw [List.foldl_cons]
        apply ih
        split
        · exact hacc
        · rename_i hs
          rw [List.nodup_append]
          exact ⟨hacc, by simp, fun a ha hb => hs (List.mem_singleton.mp hb ▸ ha)⟩
  exact hgen l [] (by simp)

/-- In a duplicate-free list every member is counted exactly once. -/
theorem count_eq_one_of_nodup_mem {x : List Char} {l : List (List Char)}
    (hnd : l.Nodup) (hmem : x ∈ l) : l.count x = 1 := by
  induction l with
  | nil => simp at hmem
  | cons y t ih =>
      rw [List.count_cons]
      rcases List.mem_cons.mp hmem with rfl | hmt
      · have hx : x ∉ t := (List.nodup_cons.mp hnd).1
        rw [List.count_eq_zero.mpr hx]
        simp
      · have hne : x ≠ y := by
          rintro rfl
          exact (List.nodup_cons.mp hnd).1 hmt
        rw [ih (List.nodup_cons.mp hnd).2 hmt]
        simp [Ne.symm hne]

/-- The warning formatter is injective. -/
theorem fmtSeq_inj {a b : List Char} (h : fmtSeq a = fmtSeq b) : a = b := by
  unfold fmtSeq at h
  have h1 := List.append_cancel_right h
  have h2 := List.append_cancel_right h1
  exact List.append_cancel_left h2

/-- A sequential warning is never the repeated-characters warning. -/
theorem fmtSeq_ne_repeated (ch : List Char) : fmtSeq ch ≠ repeatedWarning := by
  intro h
  have h0 : (fmtSeq ch).head? = some 'S' := rfl
  rw [h] at h0
  exact (by decide : ¬(repeatedWarning.head? = some 'S')) h0

/-- A sequential warning is never the too-short warning. -/
theorem fmtSeq_ne_short (ch : List Char) : fmtSeq ch ≠ shortWarning := by
  intro h
  have h0 : (fmtSeq ch).head? = some 'S' := rfl
  rw [h] at h0
  exact (by decide : ¬(shortWarning.head? = some 'S')) h0

/-- A sequential warning is never the length-advice warning. -/
theorem fmtSeq_ne_consider (ch : List Char) : fmtSeq ch ≠ considerWarning := by
  intro h
  have h0 : (fmtSeq ch).head? = some 'S' := rfl
  rw [h] at h0
  exact (by decide : ¬(considerWarning.head? = some 'S')) h0

/-- Membership in a conditional singleton forces equality. -/
theorem mem_ite_single {w x : List Char} {c : Prop} [Decidable c]
    (h : w ∈ if c then [x] else []) : w = x := by
  split at h
  · exact List.mem_singleton.mp h
  · exact absurd h (List.not_mem_nil w)

/-- Membership in the two-branch length-warning list forces one of the two
texts. -/
theorem mem_ite_len {w x y : List Char} {c d : Prop} [Decidable c] [Decidable d]
    (h : w ∈ if c then [x] else if d then [y] else []) : w = x ∨ w = y := by
  split at h
  · exact Or.inl (List.mem_singleton.mp h)
  · split at h
    · exact Or.inr (List.mem_singleton.mp h)
    · exact absurd h (List.not_mem_nil w)

/-- Characterisation of the sequential-warning pool: exactly the formatted
first match of each matching table entry. -/
theorem mem_seqWarnings (w : List Char) (lower : List Char) :
    w ∈ seqWarnings lower ↔
      ∃ seq ∈ _SEQUENCES, ∃ ch, (windows3 seq).find? (seqMatch lower) = some ch ∧
        w = fmtSeq ch := by
  unfold seqWarnings
  rw [List.mem_filterMap]
  constructor
  · rintro ⟨seq, hseq, hmap⟩
    rcases hfind : (windows3 seq).find? (seqMatch lower) with _ | ch
    · rw [hfind] at hmap
      simp at hmap
    · rw [hfind] at hmap
      exact ⟨seq, hseq, ch, hfind, by simpa using hmap.symm⟩
  · rintro ⟨seq, hseq, ch, hfind, rfl⟩
    exact ⟨seq, hseq, by rw [hfind]; rfl⟩

/-- C6: below the 90-bit threshold, every sequential warning in the report is
the formatted first matching window of some table entry (so a table entry
whose scan finds nothing contributes nothing), the first matching window of a
table entry is cited in exactly one warning, and that window really is the
first match (its predecessors in the window list do not match); at or above
the threshold no sequential warning is emitted at all.  Note the window
tables overlap (the chunk `jkl` lies in both the alphabet run and the home
row), so two table entries can cite the same chunk; the deduplicated report
still carries that warning exactly once. -/
theorem score_strength_sequential_warnings (pw : List Char) :
    (entropy pw < 90 →
      (∀ ch : List Char, fmtSeq ch ∈ (score_strength pw).warnings →
          ∃ seq ∈ _SEQUENCES,
            (windows3 seq).find? (seqMatch (lowerS pw)) = some ch) ∧
      (∀ seq ∈ _SEQUENCES, ∀ ch,
          (windows3 seq).find? (seqMatch (lowerS pw)) = some ch →
            seqMatch (lowerS pw) ch = true ∧
            (∃ l1 l2, windows3 seq = l1 ++ ch :: l2 ∧
              ∀ ch2 ∈ l1, ¬ seqMatch (lowerS pw) ch2 = true) ∧
            (score_strength pw).warnings.count (fmtSeq ch) = 1) ∧
      (∀ seq ∈ _SEQUENCES,
          (windows3 seq).find? (seqMatch (lowerS pw)) = none →
            ∀ ch ∈ windows3 seq, fmtSeq ch ∉ (score_strength pw).warnings)) ∧
    (90 ≤ entropy pw → ∀ ch : List Char, fmtSeq ch ∉ (score_strength pw).warnings) := by
  constructor
  · intro h90
    have hgate : entropyLt pw 90 := (entropy_lt_iff pw 90).mp (by exact_mod_cast h90)
    have hw : (score_strength pw).warnings =
        pyDedup (seqWarnings (lowerS pw) ++
          (if hasRepeat pw then [repeatedWarning] else []) ++
          (if pw.length < 8 then [shortWarning]
           else if pw.length < 12 then [considerWarning] else [])) := by
      show warningsOf pw = _
      unfold warningsOf
      rw [if_pos hgate]
    have hfmt_mem : ∀ ch : List Char,
        fmtSeq ch ∈ (score_strength pw).warnings ↔
          fmtSeq ch ∈ seqWarnings (lowerS pw) := by
      intro ch
      rw [hw, mem_pyDedup]
      constructor
      · intro h
        rcases List.mem_append.mp h with h1 | h2
        · rcases List.mem_append.mp h1 with ha | hb
          · exact ha
          · exact absurd (mem_ite_single hb) (fmtSeq_ne_repeated ch)
        · rcases mem_ite_len h2 with h3 | h3
          · exact absurd h3 (fmtSeq_ne_short ch)
          · exact absurd h3 (fmtSeq_ne_consider ch)
      · intro h
        exact List.mem_append.mpr (Or.inl (List.mem_append.mpr (Or.inl h)))
    refine ⟨?_, ?_, ?_⟩
    · intro ch hch
      obtain ⟨seq, hseq, ch2, hfind, heq⟩ :=
        (mem_seqWarnings _ _).mp ((hfmt_mem ch).mp hch)
      obtain rfl := fmtSeq_inj heq
      exact ⟨seq, hseq, hfind⟩
    · intro seq hseq ch hfind
      have hmatch := List.find?_some hfind
      obtain ⟨_, l1, l2, hsplit, hnomatch⟩ := List.find?_eq_some.mp hfind
      have hmem : fmtSeq ch ∈ (score_strength pw).warnings :=
        (hfmt_mem ch).mpr ((mem_seqWarnings _ _).mpr ⟨seq, hseq, ch, hfind, rfl⟩)
      refine ⟨hmatch, ⟨l1, l2, hsplit, ?_⟩, ?_⟩
      · intro ch2 hch2
        simpa using hnomatch ch2 hch2
      · rw [hw] at hmem ⊢
        exact count_eq_one_of_nodup_mem (nodup_pyDedup _) hmem
    · intro seq _ hnone ch hch hmemw
      obtain ⟨seq2, hseq2, ch2, hfind2, heq⟩ :=
        (mem_seqWarnings _ _).mp ((hfmt_mem ch).mp hmemw)
      obtain rfl := fmtSeq_inj heq
      exact (List.find?_eq_none.mp hnone ch hch) (List.find?_some hfind2)
  · intro h90 ch hmem
    have hgate : ¬ entropyLt pw 90 := by
      rw [← entropy_lt_iff]
      exact not_lt.mpr (by exact_mod_cast h90)
    have hw : (score_strength pw).warnings =
        pyDedup (([] : List (List Char)) ++
          (if hasRepeat pw then [repeatedWarning] else []) ++
          (if pw.length < 8 then [shortWarning]
           else if pw.length < 12 then [considerWarning] else [])) := by
      show warningsOf pw = _
      unfold warningsOf
      rw [if_neg hgate]
    rw [hw, mem_pyDedup] at hmem
    rcases List.mem_append.mp hmem with h1 | h2
    · rcases List.mem_append.mp h1 with ha | hb
      · exact absurd ha (List.not_mem_nil _)
      · exact absurd (mem_ite_single hb) (fmtSeq_ne_repeated ch)
    · rcases mem_ite_len h2 with h3 | h3
      · exact absurd h3 (fmtSeq_ne_short ch)
      · exact absurd h3 (fmtSeq_ne_consider ch)

/-- Concrete instance of the sequential-warning behaviour: for `abcdef` the
alphabet run's first matching window is `abc` and the report cites it in
exactly one warning. -/
theorem score_strength_sequential_warnings_witness :
    (score_strength (("abcdef").data)).warnings.count (fmtSeq (("abc").data)) = 1 :=
  (((score_strength_sequential_warnings (("abcdef").data)).1
      (by exact_mod_cast (entropy_lt_iff (("abcdef").data) 90).mpr (by decide))).2.1
    (("abcdefghijklmnopqrstuvwxyz").data) (by decide) (("abc").data) (by decide)).2.2

end Passguard
